/-
Verification of the clinical-trials-scraper repository's core logic:
company-name normalization and index construction (run_aggregation.py),
trial matching against that index (run_aggregation.py), hub proximity
(app/core/hub_prox_calculator.py), the haversine distance
(app/utils/general_utils.py), and the bounded-retry outcome classifier
(app/core/outcome_classifier.py, app/utils/classification_utils.py).

Strings are modelled over ASCII: Python's str.lower, str.strip, \w, \s
and their Lean counterparts (Char.toLower, Char.isWhitespace,
Char.isAlphanum) agree on ASCII input, which is all the repository's
configuration and the claims exercise.
-/
import Mathlib

set_option maxHeartbeats 1000000

/-! ## run_aggregation.py: clean_company_name -/

/-- Characters kept by the combined punctuation-stripping steps of
`clean_company_name` (re.sub removing `[\.,;:\-]` then `[^\w\s]`):
together they keep exactly word characters (`\w` = alphanumeric or
underscore) and whitespace. -/
def isWordOrSpace (c : Char) : Bool :=
  c.isAlphanum || c == '_' || c.isWhitespace

/-- Step 1 of `clean_company_name`: `re.sub(r'\([^)]*\).*$', '', name)`.
The regex matches at the first `'('` that is followed (anywhere later) by
a `')'`, and deletes from there to the end of the string; a `'('` with no
later `')'` never matches. -/
def truncParen : List Char → List Char
  | [] => []
  | c :: cs => if c == '(' && cs.contains ')' then [] else c :: truncParen cs

/-- Split a character list into maximal runs of non-whitespace characters
(the words of the string); `acc` holds the current word reversed. -/
def splitWordsAux : List Char → List Char → List (List Char)
  | acc, [] => if acc.isEmpty then [] else [acc.reverse]
  | acc, c :: cs =>
    if c.isWhitespace then
      if acc.isEmpty then splitWordsAux [] cs
      else acc.reverse :: splitWordsAux [] cs
    else splitWordsAux (c :: acc) cs

/-- The words of a character list. -/
def splitWords (l : List Char) : List (List Char) :=
  splitWordsAux [] l

/-- Join words with single spaces. Python's trailing
`.strip()` after suffix removal followed by `re.sub(r'\s+', ' ', ...)`
turns a string into exactly its words joined by single spaces. -/
def joinSpace (ws : List (List Char)) : List Char :=
  List.intercalate [' '] ws

/-- Steps 1-4 of `clean_company_name` as a word list: truncate at the
parenthetical, drop non-word non-space characters, lowercase, and read
off the whitespace-separated words (strip + whitespace collapse). -/
def preprocessWords : Option String → List (List Char)
  | none => []
  | some s => splitWords (((truncParen s.data).filter isWordOrSpace).map Char.toLower)

/-- The suffix vocabulary as lowercase character lists: the loader
lowercases each line and the removal regex carries `re.IGNORECASE`. -/
def suffixKeys (suffixes : List String) : List (List Char) :=
  suffixes.map (fun s => s.data.map Char.toLower)

/-- `clean_company_name` from run_aggregation.py. A non-string input
(`None`, modelled as `none`) yields `""`. Otherwise: truncate at the
first matched parenthetical, strip punctuation, lowercase and trim,
remove whole-word legal suffixes (the regex `\b(?:...)\b` on a string of
word characters and spaces removes exactly the words equal to a suffix
entry; the vocabulary consists of single `\w`-words), and collapse
whitespace. -/
def clean_company_name (suffixes : List String) (raw : Option String) : String :=
  ⟨joinSpace ((preprocessWords raw).filter (fun w => !((suffixKeys suffixes).contains w)))⟩

/-- The candidate keys of a raw name: the single cleaned key, or none at
all when cleaning yields the empty string (empty keys are skipped by the
`if key:` guard when the index is built, and an empty lead/collaborator
key can never match because empty keys are never inserted). -/
def candidateKeys (suffixes : List String) (raw : Option String) : List String :=
  let k := clean_company_name suffixes raw
  if k = "" then [] else [k]

/-! ## run_aggregation.py: index construction and trial matching -/

/-- The raw names in `company_names` that clean to key `k`: the entry
`temp_map[k]` (in insertion order), before the uniqueness filter. -/
def keyProducers (suffixes : List String) (company_names : List String) (k : String) :
    List String :=
  company_names.filter (fun raw => clean_company_name suffixes (some raw) == k)

/-- Lookup in `unique_cleaned_map`: `temp_map` only receives non-empty
keys (`if key:`), and the final map keeps a key exactly when
`len(originals) == 1`, mapping it to `originals[0]`. `none` models
"key not in unique_cleaned_map". -/
def unique_cleaned_map (suffixes : List String) (company_names : List String) (k : String) :
    Option String :=
  if k = "" then none
  else
    match keyProducers suffixes company_names k with
    | [r] => some r
    | _ => none

/-- A trial record as consumed by the aggregation loop:
`trial.get("Lead Sponsor", "")` and `trial.get("Collaborators", "")`. -/
structure Trial where
  leadSponsor : String
  collaborators : String
  deriving DecidableEq, Repr

/-- Python `str.strip()`: drop leading and trailing whitespace. -/
def stripChars (l : List Char) : List Char :=
  ((l.dropWhile Char.isWhitespace).reverse.dropWhile Char.isWhitespace).reverse

/-- `lead_raw = trial.get("Lead Sponsor", "").strip()`. -/
def leadRaw (t : Trial) : List Char :=
  stripChars t.leadSponsor.data

/-- Python `needle in hay` on strings: substring test. -/
def containsSub (needle : List Char) : List Char → Bool
  | [] => needle.isEmpty
  | c :: cs => needle.isPrefixOf (c :: cs) || containsSub needle cs

/-- Banned-phrase test on a trial:
`any(bp in lead_raw.lower() for bp in banned_phrases)`. The banned
phrases are lowercased by the loader; the model lowercases them again,
which is idempotent on the loaded data. -/
def bannedHit (banned_phrases : List String) (t : Trial) : Bool :=
  banned_phrases.any
    (fun bp => containsSub (bp.data.map Char.toLower) ((leadRaw t).map Char.toLower))

/-- Split a character list at every comma, keeping empty segments
(Python `str.split(",")`). -/
def splitComma : List Char → List (List Char)
  | [] => [[]]
  | c :: cs =>
    if c == ',' then [] :: splitComma cs
    else
      match splitComma cs with
      | [] => [[c]]
      | seg :: rest => (c :: seg) :: rest

/-- `collab_list = [c.strip() for c in trial.get("Collaborators", "").split(",") if c.strip()]`. -/
def collabList (t : Trial) : List (List Char) :=
  ((splitComma t.collaborators.data).map stripChars).filter (fun c => !c.isEmpty)

/-- The collaborator scan: the first collaborator (in order) whose
cleaned key is in `unique_cleaned_map` yields that company; the loop
`break`s at the first hit. -/
def firstCollabMatch (suffixes : List String) (company_names : List String) :
    List (List Char) → Option String
  | [] => none
  | c :: rest =>
    match unique_cleaned_map suffixes company_names
        (clean_company_name suffixes (some ⟨c⟩)) with
    | some comp => some comp
    | none => firstCollabMatch suffixes company_names rest

/-- The `matched` set of the aggregation loop. The lead sponsor is
looked up first; its single cleaned key is added on a hit and the
collaborator loop is guarded by `if not matched`, so collaborators are
only scanned when the lead sponsor missed. The set holds at most one
company, modelled as an `Option`. -/
def matchTrial (suffixes : List String) (company_names : List String) (t : Trial) :
    Option String :=
  match unique_cleaned_map suffixes company_names
      (clean_company_name suffixes (some ⟨leadRaw t⟩)) with
  | some comp => some comp
  | none => firstCollabMatch suffixes company_names (collabList t)

/-- One `known_companies` entry: `{"trial_count": n, "trials": [...]}`. -/
structure CompanyEntry where
  trial_count : Nat
  trials : List Trial
  deriving DecidableEq, Repr

/-- `known_companies.setdefault(company, {...})` followed by incrementing
the count and appending the trial; dict insertion order preserved. -/
def addTrial : List (String × CompanyEntry) → String → Trial → List (String × CompanyEntry)
  | [], comp, t => [(comp, ⟨1, [t]⟩)]
  | (c, e) :: rest, comp, t =>
    if c = comp then (c, ⟨e.trial_count + 1, e.trials ++ [t]⟩) :: rest
    else (c, e) :: addTrial rest comp t

/-- The two result containers of the aggregation loop:
`known_companies` and `unknown_trials`. -/
structure AggState where
  known : List (String × CompanyEntry)
  unknown : List Trial
  deriving DecidableEq, Repr

/-- One iteration of the trial loop: a trial whose lead sponsor contains
a banned phrase is skipped entirely (`continue`) before matching;
otherwise a matched trial is bucketed under its company and an unmatched
one is appended to `unknown_trials`. -/
def processTrial (suffixes banned_phrases company_names : List String)
    (st : AggState) (t : Trial) : AggState :=
  if bannedHit banned_phrases t then st
  else
    match matchTrial suffixes company_names t with
    | some comp => ⟨addTrial st.known comp t, st.unknown⟩
    | none => ⟨st.known, st.unknown ++ [t]⟩

/-- The whole aggregation loop over the trial list. -/
def runAggregation (suffixes banned_phrases company_names : List String)
    (trials : List Trial) : AggState :=
  trials.foldl (processTrial suffixes banned_phrases company_names) ⟨[], []⟩

/-! ## Claims about normalization (C5, C7) and banned-phrase skipping (C6) -/

/-- C5: normalization truncates a raw name at the first `'('`, dropping
the parenthetical and everything after it, before punctuation stripping
and legal-suffix removal, so `"Acme Corp (USA) GmbH"` and `"Acme Corp"`
clean to the same key and share their candidate key, for every suffix
vocabulary. -/
theorem C5_paren_truncation_shares_key (suffixes : List String) :
    clean_company_name suffixes (some "Acme Corp (USA) GmbH")
        = clean_company_name suffixes (some "Acme Corp") ∧
      candidateKeys suffixes (some "Acme Corp (USA) GmbH")
        = candidateKeys suffixes (some "Acme Corp") := by
  have h : preprocessWords (some "Acme Corp (USA) GmbH")
      = preprocessWords (some "Acme Corp") := by decide
  constructor
  · simp only [clean_company_name, h]
  · simp only [candidateKeys, clean_company_name, h]

/-- C7: a raw name that is not a valid non-empty string (`None` or `""`)
produces no candidate key, cleans to the empty key, and the empty key is
never present in `unique_cleaned_map` (so it is never inserted and can
never match a trial's sponsor or collaborator). -/
theorem C7_empty_and_none_normalize_to_nothing
    (suffixes company_names : List String) :
    candidateKeys suffixes none = [] ∧
      candidateKeys suffixes (some "") = [] ∧
      clean_company_name suffixes none = "" ∧
      clean_company_name suffixes (some "") = "" ∧
      unique_cleaned_map suffixes company_names "" = none := by
  refine ⟨rfl, rfl, rfl, rfl, ?_⟩
  simp [unique_cleaned_map]

/-- C6: a trial whose lead sponsor contains a banned phrase
(case-insensitive substring) is skipped by `continue` before any
matching, so one loop iteration leaves both `known_companies` and
`unknown_trials` exactly as they were. -/
theorem C6_banned_lead_leaves_state_unchanged
    (suffixes banned_phrases company_names : List String)
    (st : AggState) (t : Trial) (h : bannedHit banned_phrases t = true) :
    processTrial suffixes banned_phrases company_names st t = st ∧
      (processTrial suffixes banned_phrases company_names st t).known = st.known ∧
      (processTrial suffixes banned_phrases company_names st t).unknown = st.unknown := by
  simp [processTrial, h]

/-- Witness for C6: the NIH trial of the spec's example is dropped
entirely by a concrete run of one loop iteration. -/
theorem C6_banned_lead_leaves_state_unchanged_witness :
    processTrial ["inc"] ["national institutes"] ["Acme Inc"]
        ⟨[("Acme Inc", ⟨1, [⟨"Acme Inc", ""⟩]⟩)], [⟨"Zeta", ""⟩]⟩
        ⟨"National Institutes of Health", "Acme Inc"⟩
      = ⟨[("Acme Inc", ⟨1, [⟨"Acme Inc", ""⟩]⟩)], [⟨"Zeta", ""⟩]⟩ :=
  (C6_banned_lead_leaves_state_unchanged ["inc"] ["national institutes"]
    ["Acme Inc"] _ _ (by decide)).1

/-! ## Claim C2: lead sponsor priority and first-hit collaborator scan -/

/-- The collaborator loop returns the first hit: collaborators before it
all miss the index, and collaborators after it are never examined. -/
theorem firstCollabMatch_first_hit (suffixes company_names : List String)
    (pre : List (List Char)) (c : List Char) (post : List (List Char)) (B : String)
    (hpre : ∀ c' ∈ pre,
      unique_cleaned_map suffixes company_names
        (clean_company_name suffixes (some ⟨c'⟩)) = none)
    (hc : unique_cleaned_map suffixes company_names
      (clean_company_name suffixes (some ⟨c⟩)) = some B) :
    firstCollabMatch suffixes company_names (pre ++ c :: post) = some B := by
  induction pre with
  | nil => simp [firstCollabMatch, hc]
  | cons p ps ih =>
    have hp := hpre p (List.mem_cons_self p ps)
    simp only [List.cons_append, firstCollabMatch, hp]
    exact ih fun c' hc' => hpre c' (List.mem_cons_of_mem p hc')

/-- C2: for a trial whose lead sponsor is not banned, a lead-sponsor
index hit on company `A` attributes the trial to `A` only — the result
is the same for every collaborator string, and the loop iteration adds
the trial to `A`'s bucket and leaves `unknown_trials` alone. When the
lead sponsor misses, collaborators are scanned in order and the scan
stops at the first collaborator whose key is in the index. -/
theorem C2_lead_sponsor_priority
    (suffixes banned_phrases company_names : List String) (st : AggState) (t : Trial)
    (hban : bannedHit banned_phrases t = false) :
    (∀ A, unique_cleaned_map suffixes company_names
          (clean_company_name suffixes (some ⟨leadRaw t⟩)) = some A →
        matchTrial suffixes company_names t = some A ∧
          (∀ collabs, matchTrial suffixes company_names ⟨t.leadSponsor, collabs⟩ = some A) ∧
          processTrial suffixes banned_phrases company_names st t
            = ⟨addTrial st.known A t, st.unknown⟩) ∧
      (unique_cleaned_map suffixes company_names
          (clean_company_name suffixes (some ⟨leadRaw t⟩)) = none →
        ∀ pre c post B, collabList t = pre ++ c :: post →
          (∀ c' ∈ pre,
            unique_cleaned_map suffixes company_names
              (clean_company_name suffixes (some ⟨c'⟩)) = none) →
          unique_cleaned_map suffixes company_names
            (clean_company_name suffixes (some ⟨c⟩)) = some B →
          matchTrial suffixes company_names t = some B) := by
  constructor
  · intro A hA
    have hmatch : matchTrial suffixes company_names t = some A := by
      simp [matchTrial, hA]
    refine ⟨hmatch, ?_, ?_⟩
    · intro collabs
      have hlead : leadRaw ⟨t.leadSponsor, collabs⟩ = leadRaw t := rfl
      simp [matchTrial, hlead, hA]
    · simp [processTrial, hban, hmatch]
  · intro hnone pre c post B hsplit hpre hc
    simp only [matchTrial, hnone, hsplit]
    exact firstCollabMatch_first_hit suffixes company_names pre c post B hpre hc

/-- Witness for C2: with index `{"acme" ↦ "Acme Inc", "beta" ↦ "Beta Inc"}`,
a trial led by `"Acme Inc"` with first collaborator `"Beta Inc"` is
attributed to `"Acme Inc"` only. -/
theorem C2_lead_sponsor_priority_witness :
    matchTrial ["inc"] ["Acme Inc", "Beta Inc"] ⟨"Acme Inc", "Beta Inc"⟩
        = some "Acme Inc" ∧
      processTrial ["inc"] ["national institutes"] ["Acme Inc", "Beta Inc"]
          ⟨[], []⟩ ⟨"Acme Inc", "Beta Inc"⟩
        = ⟨[("Acme Inc", ⟨1, [⟨"Acme Inc", "Beta Inc"⟩]⟩)], []⟩ := by
  have h := (C2_lead_sponsor_priority ["inc"] ["national institutes"]
      ["Acme Inc", "Beta Inc"] ⟨[], []⟩ ⟨"Acme Inc", "Beta Inc"⟩ (by decide)).1
      "Acme Inc" (by decide)
  exact ⟨h.1, h.2.2⟩

/-! ## Claim C1: ambiguous keys are excluded from the index -/

/-- A key is ambiguous when two distinct raw names in the company list
both clean to it. -/
def ambiguousKey (suffixes company_names : List String) (k : String) : Prop :=
  ∃ r1 ∈ company_names, ∃ r2 ∈ company_names,
    r1 ≠ r2 ∧ clean_company_name suffixes (some r1) = k ∧
      clean_company_name suffixes (some r2) = k

instance (suffixes company_names : List String) (k : String) :
    Decidable (ambiguousKey suffixes company_names k) := by
  unfold ambiguousKey; infer_instance

/-- An ambiguous key is dropped from `unique_cleaned_map` entirely:
`temp_map[k]` holds at least two originals, so the `len(originals) == 1`
filter removes it. -/
theorem unique_cleaned_map_eq_none_of_ambiguous
    (suffixes company_names : List String) (k : String)
    (h : ambiguousKey suffixes company_names k) :
    unique_cleaned_map suffixes company_names k = none := by
  obtain ⟨r1, hm1, r2, hm2, hne, hk1, hk2⟩ := h
  by_cases hk : k = ""
  · simp [unique_cleaned_map, hk]
  · have hp1 : r1 ∈ keyProducers suffixes company_names k := by
      simp [keyProducers, List.mem_filter, hm1, hk1]
    have hp2 : r2 ∈ keyProducers suffixes company_names k := by
      simp [keyProducers, List.mem_filter, hm2, hk2]
    rcases hl : keyProducers suffixes company_names k with - | ⟨r, - | ⟨r', rest⟩⟩
    · rw [hl] at hp1; exact absurd hp1 (List.not_mem_nil r1)
    · rw [hl] at hp1 hp2
      rcases List.mem_singleton.1 hp1 with rfl
      rcases List.mem_singleton.1 hp2 with rfl
      exact absurd rfl hne
    · simp [unique_cleaned_map, hk, hl]

/-- A scan over collaborators that all miss the index finds nothing. -/
theorem firstCollabMatch_eq_none (suffixes company_names : List String)
    (cs : List (List Char))
    (h : ∀ c ∈ cs,
      unique_cleaned_map suffixes company_names
        (clean_company_name suffixes (some ⟨c⟩)) = none) :
    firstCollabMatch suffixes company_names cs = none := by
  induction cs with
  | nil => rfl
  | cons c rest ih =>
    have hc := h c (List.mem_cons_self c rest)
    simp only [firstCollabMatch, hc]
    exact ih fun c' hc' => h c' (List.mem_cons_of_mem c hc')

/-- Every candidate key of a raw sponsor/collaborator string misses the
index when each of its candidate keys is ambiguous (a string with no
candidate key yields the empty key, which is never in the index). -/
theorem lookup_eq_none_of_all_ambiguous (suffixes company_names : List String)
    (s : String)
    (h : ∀ k ∈ candidateKeys suffixes (some s), ambiguousKey suffixes company_names k) :
    unique_cleaned_map suffixes company_names (clean_company_name suffixes (some s))
      = none := by
  by_cases hk : clean_company_name suffixes (some s) = ""
  · simp [unique_cleaned_map, hk]
  · refine unique_cleaned_map_eq_none_of_ambiguous suffixes company_names _ (h _ ?_)
    simp [candidateKeys, hk]

/-- C1: the usable index contains a key only if exactly one raw name
produced it; a key produced by two distinct raw names is excluded
outright (no first- or last-seen winner); and a non-banned trial all of
whose sponsor and collaborator candidate keys are ambiguous matches
nothing and lands in `unknown_trials`. -/
theorem C1_collision_keys_excluded (suffixes company_names : List String) :
    (∀ k r, unique_cleaned_map suffixes company_names k = some r →
        k ≠ "" ∧ (keyProducers suffixes company_names k).length = 1 ∧
          r ∈ company_names ∧ clean_company_name suffixes (some r) = k) ∧
      (∀ k, ambiguousKey suffixes company_names k →
        unique_cleaned_map suffixes company_names k = none) ∧
      (∀ banned_phrases st t, bannedHit banned_phrases t = false →
        (∀ k ∈ candidateKeys suffixes (some ⟨leadRaw t⟩),
          ambiguousKey suffixes company_names k) →
        (∀ c ∈ collabList t, ∀ k ∈ candidateKeys suffixes (some ⟨c⟩),
          ambiguousKey suffixes company_names k) →
        processTrial suffixes banned_phrases company_names st t
          = ⟨st.known, st.unknown ++ [t]⟩) := by
  refine ⟨?_, fun k => unique_cleaned_map_eq_none_of_ambiguous suffixes company_names k, ?_⟩
  · intro k r hr
    unfold unique_cleaned_map at hr
    by_cases hk : k = ""
    · simp [hk] at hr
    · rw [if_neg hk] at hr
      cases hl : keyProducers suffixes company_names k with
      | nil => rw [hl] at hr; simp at hr
      | cons r' rest =>
        cases rest with
        | cons r'' rest' => rw [hl] at hr; simp at hr
        | nil =>
          rw [hl] at hr
          have hr' : r' = r := by simpa using hr
          subst hr'
          have hmem : r' ∈ keyProducers suffixes company_names k := by simp [hl]
          have hmf := List.mem_filter.1 hmem
          refine ⟨hk, by simp [hl], hmf.1, ?_⟩
          simpa using hmf.2
  · intro banned_phrases st t hban hlead hcollab
    have hleadnone := lookup_eq_none_of_all_ambiguous suffixes company_names _ hlead
    have hmatch : matchTrial suffixes company_names t = none := by
      simp only [matchTrial, hleadnone]
      exact firstCollabMatch_eq_none suffixes company_names _ fun c hc =>
        lookup_eq_none_of_all_ambiguous suffixes company_names _ (hcollab c hc)
    simp [processTrial, hban, hmatch]

/-- Witness for C1: `"Acme Inc."` and `"ACME INCORPORATED"` both clean
to `"acme"`, the key is absent from the index, and a trial led by
either collides into `unknown_trials`. -/
theorem C1_collision_keys_excluded_witness :
    unique_cleaned_map ["inc", "incorporated"] ["Acme Inc.", "ACME INCORPORATED"] "acme"
        = none ∧
      processTrial ["inc", "incorporated"] ["national institutes"]
          ["Acme Inc.", "ACME INCORPORATED"] ⟨[], []⟩ ⟨"Acme Inc.", ""⟩
        = ⟨[], [⟨"Acme Inc.", ""⟩]⟩ := by
  have h := C1_collision_keys_excluded ["inc", "incorporated"]
    ["Acme Inc.", "ACME INCORPORATED"]
  exact ⟨h.2.1 "acme" (by decide),
    h.2.2 ["national institutes"] ⟨[], []⟩ ⟨"Acme Inc.", ""⟩ (by decide)
      (by decide) (by decide)⟩

/-! ## app/core/hub_prox_calculator.py: find_closest_hub

The scan's float values are modelled as `WithTop ℚ`: finite distances
produced by `get_distance` are rationals and the initial
`min_distance = float("inf")` is `⊤`. The distance computation itself is
abstracted as a parameter `dist` (the claims about the scan hold for
every distance function, in particular the haversine one). -/

/-- A hub dictionary `{'city': ..., 'latitude': ..., 'longitude': ...}`. -/
structure Hub where
  city : String
  latitude : ℚ
  longitude : ℚ
  deriving DecidableEq, Repr

/-- The strict-minimum scan of `find_closest_hub`: update `min_distance`
and `closest_hub` only when `distance < min_distance`. -/
def closestLoop (dist : ℚ → ℚ → ℚ → ℚ → ℚ) (company_lat company_lon : ℚ) :
    List Hub → WithTop ℚ → Option String → WithTop ℚ × Option String
  | [], m, c => (m, c)
  | hub :: rest, m, c =>
    let d : WithTop ℚ := ((dist company_lat company_lon hub.latitude hub.longitude : ℚ) : WithTop ℚ)
    if d < m then closestLoop dist company_lat company_lon rest d (some hub.city)
    else closestLoop dist company_lat company_lon rest m c

/-- `find_closest_hub(company_lat, company_lon, hubs, distance_threshold)`
with its result pair `(closest_hub, min_distance)`; the threshold branch
returns `(None, None)` when the threshold is positive and exceeded, and
the Python default argument is `distance_threshold = -1`. -/
def find_closest_hub (dist : ℚ → ℚ → ℚ → ℚ → ℚ) (company_lat company_lon : ℚ)
    (hubs : List Hub) (distance_threshold : ℚ) :
    Option String × Option (WithTop ℚ) :=
  let mc := closestLoop dist company_lat company_lon hubs ⊤ none
  if 0 < distance_threshold ∧ (distance_threshold : WithTop ℚ) < mc.1 then (none, none)
  else (mc.2, some mc.1)

/-! ## Claims C3, C4, C10 about find_closest_hub -/

/-- The first-minimum hub of a list: the hub the strict-`<` scan ends up
reporting. Ties keep the earlier hub. -/
def bestHub (dist : ℚ → ℚ → ℚ → ℚ → ℚ) (company_lat company_lon : ℚ) :
    List Hub → Option Hub
  | [] => none
  | h :: t =>
    match bestHub dist company_lat company_lon t with
    | none => some h
    | some q =>
      if dist company_lat company_lon q.latitude q.longitude
          < dist company_lat company_lon h.latitude h.longitude then some q
      else some h

/-- Unfolding `bestHub` on a cons cell when the tail already has a
first-minimum hub. -/
theorem bestHub_cons (dist : ℚ → ℚ → ℚ → ℚ → ℚ) (lat lon : ℚ)
    (h : Hub) (t : List Hub) (q : Hub) (hb : bestHub dist lat lon t = some q) :
    bestHub dist lat lon (h :: t) =
      if dist lat lon q.latitude q.longitude
          < dist lat lon h.latitude h.longitude then some q
      else some h := by
  simp only [bestHub, hb]

/-- `bestHub` finds a hub exactly on non-empty lists. -/
theorem bestHub_eq_none_iff (dist : ℚ → ℚ → ℚ → ℚ → ℚ) (lat lon : ℚ)
    (l : List Hub) : bestHub dist lat lon l = none ↔ l = [] := by
  cases l with
  | nil => simp [bestHub]
  | cons h t =>
    simp only [bestHub]
    constructor
    · intro hb
      exfalso
      cases hbt : bestHub dist lat lon t <;> rw [hbt] at hb <;> revert hb <;>
        simp only [] <;> intro hb
      · exact Option.noConfusion hb
      · revert hb; split <;> intro hb <;> exact Option.noConfusion hb
    · intro heq; exact absurd heq (List.cons_ne_nil _ _)

/-- The scan with accumulator `(m, c)` returns the first-minimum hub's
distance and city when that distance beats `m`, and the accumulator
otherwise. -/
theorem closestLoop_eq_bestHub (dist : ℚ → ℚ → ℚ → ℚ → ℚ) (lat lon : ℚ)
    (l : List Hub) (q : Hub) (hq : bestHub dist lat lon l = some q) :
    ∀ m c, closestLoop dist lat lon l m c =
      if ((dist lat lon q.latitude q.longitude : ℚ) : WithTop ℚ) < m then
        (((dist lat lon q.latitude q.longitude : ℚ) : WithTop ℚ), some q.city)
      else (m, c) := by
  induction l generalizing q with
  | nil => simp [bestHub] at hq
  | cons h t ih =>
    intro m c
    cases hbt : bestHub dist lat lon t with
    | none =>
      have ht : t = [] := (bestHub_eq_none_iff dist lat lon t).1 hbt
      subst ht
      have hqh : q = h := by
        have : bestHub dist lat lon [h] = some h := rfl
        rw [this] at hq; exact (Option.some.injEq _ _ ▸ hq).symm
      subst hqh
      show (if ((dist lat lon q.latitude q.longitude : ℚ) : WithTop ℚ) < m then
          closestLoop dist lat lon [] (dist lat lon q.latitude q.longitude) (some q.city)
        else closestLoop dist lat lon [] m c) = _
      split <;> rfl
    | some q' =>
      rw [bestHub_cons dist lat lon h t q' hbt] at hq
      show (if ((dist lat lon h.latitude h.longitude : ℚ) : WithTop ℚ) < m then
          closestLoop dist lat lon t (dist lat lon h.latitude h.longitude) (some h.city)
        else closestLoop dist lat lon t m c) = _
      rw [ih q' hbt, ih q' hbt]
      by_cases hq'h : dist lat lon q'.latitude q'.longitude
          < dist lat lon h.latitude h.longitude
      · rw [if_pos hq'h] at hq
        cases hq
        have hq'h' : ((dist lat lon q.latitude q.longitude : ℚ) : WithTop ℚ)
            < ((dist lat lon h.latitude h.longitude : ℚ) : WithTop ℚ) :=
          WithTop.coe_lt_coe.2 hq'h
        by_cases hdm : ((dist lat lon h.latitude h.longitude : ℚ) : WithTop ℚ) < m
        · rw [if_pos hdm, if_pos hq'h', if_pos (lt_trans hq'h' hdm)]
        · rw [if_neg hdm]
      · rw [if_neg hq'h] at hq
        cases hq
        have hle : ((dist lat lon h.latitude h.longitude : ℚ) : WithTop ℚ)
            ≤ ((dist lat lon q'.latitude q'.longitude : ℚ) : WithTop ℚ) :=
          WithTop.coe_le_coe.2 (le_of_not_lt hq'h)
        by_cases hdm : ((dist lat lon h.latitude h.longitude : ℚ) : WithTop ℚ) < m
        · rw [if_pos hdm, if_neg (not_lt.2 hle), if_pos hdm]
        · rw [if_neg hdm, if_neg (fun hlt => hdm (lt_of_le_of_lt hle hlt)), if_neg hdm]

/-- The first-minimum hub is a member of the list. -/
theorem bestHub_mem (dist : ℚ → ℚ → ℚ → ℚ → ℚ) (lat lon : ℚ)
    (l : List Hub) (q : Hub) (h : bestHub dist lat lon l = some q) : q ∈ l := by
  induction l generalizing q with
  | nil => simp [bestHub] at h
  | cons hd t ih =>
    cases hbt : bestHub dist lat lon t with
    | none =>
      have ht : t = [] := (bestHub_eq_none_iff dist lat lon t).1 hbt
      subst ht
      have hh : bestHub dist lat lon [hd] = some hd := rfl
      rw [hh] at h
      obtain rfl := Option.some.inj h
      exact List.mem_singleton_self hd
    | some q' =>
      rw [bestHub_cons dist lat lon hd t q' hbt] at h
      by_cases hcmp : dist lat lon q'.latitude q'.longitude
          < dist lat lon hd.latitude hd.longitude
      · rw [if_pos hcmp] at h
        obtain rfl := Option.some.inj h
        exact List.mem_cons_of_mem hd (ih q' hbt)
      · rw [if_neg hcmp] at h
        obtain rfl := Option.some.inj h
        exact List.mem_cons_self hd t

/-- The first-minimum hub's distance is minimal over the list. -/
theorem bestHub_min (dist : ℚ → ℚ → ℚ → ℚ → ℚ) (lat lon : ℚ)
    (l : List Hub) (q : Hub) (h : bestHub dist lat lon l = some q) :
    ∀ p ∈ l, dist lat lon q.latitude q.longitude
      ≤ dist lat lon p.latitude p.longitude := by
  induction l generalizing q with
  | nil => simp [bestHub] at h
  | cons hd t ih =>
    intro p hp
    cases hbt : bestHub dist lat lon t with
    | none =>
      have ht : t = [] := (bestHub_eq_none_iff dist lat lon t).1 hbt
      subst ht
      have hh : bestHub dist lat lon [hd] = some hd := rfl
      rw [hh] at h
      obtain rfl := Option.some.inj h
      rcases List.mem_singleton.1 hp with rfl
      exact le_refl _
    | some q' =>
      rw [bestHub_cons dist lat lon hd t q' hbt] at h
      by_cases hcmp : dist lat lon q'.latitude q'.longitude
          < dist lat lon hd.latitude hd.longitude
      · rw [if_pos hcmp] at h
        obtain rfl := Option.some.inj h
        rcases List.mem_cons.1 hp with rfl | hpt
        · exact le_of_lt hcmp
        · exact ih q' hbt p hpt
      · rw [if_neg hcmp] at h
        obtain rfl := Option.some.inj h
        rcases List.mem_cons.1 hp with rfl | hpt
        · exact le_refl _
        · exact le_trans (le_of_not_lt hcmp) (ih q' hbt p hpt)

/-- The first-minimum hub strictly beats every hub before it in
iteration order: the list splits as `pre ++ q :: post` with every hub of
`pre` strictly farther away. -/
theorem bestHub_first (dist : ℚ → ℚ → ℚ → ℚ → ℚ) (lat lon : ℚ)
    (l : List Hub) (q : Hub) (h : bestHub dist lat lon l = some q) :
    ∃ pre post, l = pre ++ q :: post ∧
      ∀ p ∈ pre, dist lat lon q.latitude q.longitude
        < dist lat lon p.latitude p.longitude := by
  induction l generalizing q with
  | nil => simp [bestHub] at h
  | cons hd t ih =>
    cases hbt : bestHub dist lat lon t with
    | none =>
      have ht : t = [] := (bestHub_eq_none_iff dist lat lon t).1 hbt
      subst ht
      have hh : bestHub dist lat lon [hd] = some hd := rfl
      rw [hh] at h
      obtain rfl := Option.some.inj h
      exact ⟨[], [], rfl, by simp⟩
    | some q' =>
      rw [bestHub_cons dist lat lon hd t q' hbt] at h
      by_cases hcmp : dist lat lon q'.latitude q'.longitude
          < dist lat lon hd.latitude hd.longitude
      · rw [if_pos hcmp] at h
        obtain rfl := Option.some.inj h
        obtain ⟨pre, post, hsp, hpre⟩ := ih q' hbt
        refine ⟨hd :: pre, post, by simp [hsp], ?_⟩
        intro p hp
        rcases List.mem_cons.1 hp with rfl | hp'
        · exact hcmp
        · exact hpre p hp'
      · rw [if_neg hcmp] at h
        obtain rfl := Option.some.inj h
        exact ⟨[], t, rfl, by simp⟩

/-- C3: on a non-empty hub list (default `distance_threshold = -1`, no
cutoff), `find_closest_hub` returns the name and distance of a hub whose
distance is ≤ that of every hub in the list, and — because the scan
updates only on strict `<` — every hub earlier in iteration order is
strictly farther: the first minimizer wins ties. -/
theorem C3_returns_first_minimal_hub (dist : ℚ → ℚ → ℚ → ℚ → ℚ)
    (lat lon : ℚ) (hubs : List Hub) (hne : hubs ≠ []) :
    ∃ q pre post, hubs = pre ++ q :: post ∧
      find_closest_hub dist lat lon hubs (-1)
        = (some q.city, some ((dist lat lon q.latitude q.longitude : ℚ) : WithTop ℚ)) ∧
      (∀ p ∈ hubs, dist lat lon q.latitude q.longitude
        ≤ dist lat lon p.latitude p.longitude) ∧
      (∀ p ∈ pre, dist lat lon q.latitude q.longitude
        < dist lat lon p.latitude p.longitude) := by
  cases hb : bestHub dist lat lon hubs with
  | none => exact absurd ((bestHub_eq_none_iff dist lat lon hubs).1 hb) hne
  | some q =>
    obtain ⟨pre, post, hsp, hpre⟩ := bestHub_first dist lat lon hubs q hb
    have hloop := closestLoop_eq_bestHub dist lat lon hubs q hb ⊤ none
    rw [if_pos (WithTop.coe_lt_top _)] at hloop
    refine ⟨q, pre, post, hsp, ?_, bestHub_min dist lat lon hubs q hb, hpre⟩
    unfold find_closest_hub
    rw [hloop]
    rw [if_neg (fun hcon => absurd hcon.1 (by norm_num))]

/-- A concrete distance function for witnesses: the hub's latitude (the
company location is ignored), kept free of rational arithmetic so the
kernel can evaluate it. -/
def demoDist : ℚ → ℚ → ℚ → ℚ → ℚ := fun _ _ a _ => a

/-- Concrete hubs for witnesses: distances 5, 2, 2 under `demoDist`, so
the minimum is tied between "B" and "C" and the scan must keep "B". -/
def demoHubs : List Hub := [⟨"A", 5, 0⟩, ⟨"B", 2, 0⟩, ⟨"C", 2, 0⟩]

/-- Witness for C3: the tie between "B" and "C" resolves to "B", the
first minimizer in iteration order. -/
theorem C3_returns_first_minimal_hub_witness :
    find_closest_hub demoDist 0 0 demoHubs (-1)
        = (some "B", some ((2 : ℚ) : WithTop ℚ)) ∧
      (∃ q pre post, demoHubs = pre ++ q :: post ∧
        find_closest_hub demoDist 0 0 demoHubs (-1)
          = (some q.city, some ((demoDist 0 0 q.latitude q.longitude : ℚ) : WithTop ℚ)) ∧
        (∀ p ∈ demoHubs, demoDist 0 0 q.latitude q.longitude
          ≤ demoDist 0 0 p.latitude p.longitude) ∧
        (∀ p ∈ pre, demoDist 0 0 q.latitude q.longitude
          < demoDist 0 0 p.latitude p.longitude)) :=
  ⟨by decide, C3_returns_first_minimal_hub demoDist 0 0 demoHubs (by decide)⟩

/-- C4: threshold semantics of `find_closest_hub`. With the nearest hub
`q` (so `dist` to `q` is the minimum the scan found): a positive
threshold strictly below that minimum yields `(None, None)`; a positive
threshold at or above it yields the nearest hub and its distance; and a
non-positive threshold (the default is `-1`) applies no cutoff at all. -/
theorem C4_distance_threshold_semantics (dist : ℚ → ℚ → ℚ → ℚ → ℚ)
    (lat lon : ℚ) (hubs : List Hub) (distance_threshold : ℚ) (q : Hub)
    (hq : bestHub dist lat lon hubs = some q) :
    (0 < distance_threshold →
      distance_threshold < dist lat lon q.latitude q.longitude →
      find_closest_hub dist lat lon hubs distance_threshold = (none, none)) ∧
      (0 < distance_threshold →
        dist lat lon q.latitude q.longitude ≤ distance_threshold →
        find_closest_hub dist lat lon hubs distance_threshold
          = (some q.city, some ((dist lat lon q.latitude q.longitude : ℚ) : WithTop ℚ))) ∧
      (distance_threshold ≤ 0 →
        find_closest_hub dist lat lon hubs distance_threshold
          = (some q.city, some ((dist lat lon q.latitude q.longitude : ℚ) : WithTop ℚ))) := by
  have hloop := closestLoop_eq_bestHub dist lat lon hubs q hq ⊤ none
  rw [if_pos (WithTop.coe_lt_top _)] at hloop
  refine ⟨?_, ?_, ?_⟩
  · intro hpos hexceed
    unfold find_closest_hub
    rw [hloop]
    rw [if_pos ⟨hpos, WithTop.coe_lt_coe.2 hexceed⟩]
  · intro hpos hwithin
    unfold find_closest_hub
    rw [hloop]
    rw [if_neg (fun hcon => absurd hcon.2 (not_lt.2 (WithTop.coe_le_coe.2 hwithin)))]
  · intro hnonpos
    unfold find_closest_hub
    rw [hloop]
    rw [if_neg (fun hcon => absurd hcon.1 (not_lt.2 hnonpos))]

/-- Witness for C4, mirroring the spec's example: a nearest hub 2 away
is rejected under threshold 1 but returned under threshold 100, and the
default threshold `-1` applies no cutoff. -/
theorem C4_distance_threshold_semantics_witness :
    find_closest_hub demoDist 0 0 demoHubs 1 = (none, none) ∧
      find_closest_hub demoDist 0 0 demoHubs 100
        = (some "B", some ((2 : ℚ) : WithTop ℚ)) ∧
      find_closest_hub demoDist 0 0 demoHubs (-1)
        = (some "B", some ((2 : ℚ) : WithTop ℚ)) := by
  have h := C4_distance_threshold_semantics demoDist 0 0 demoHubs 1
    ⟨"B", 2, 0⟩ (by decide)
  have h' := C4_distance_threshold_semantics demoDist 0 0 demoHubs 100
    ⟨"B", 2, 0⟩ (by decide)
  have h'' := C4_distance_threshold_semantics demoDist 0 0 demoHubs (-1)
    ⟨"B", 2, 0⟩ (by decide)
  exact ⟨h.1 (by norm_num) (by norm_num [demoDist]),
    h'.2.1 (by norm_num) (by norm_num [demoDist]),
    h''.2.2 (by norm_num)⟩

/-- C10: on an empty hub list the scan never updates the accumulator, so
with the default (non-positive) threshold the function returns
`(None, float('inf'))` — the hub name is `None` but the distance
component is positive infinity, not `None` — while a positive threshold
turns the same call into `(None, None)` because `inf` exceeds it. -/
theorem C10_empty_hubs_inf_distance (dist : ℚ → ℚ → ℚ → ℚ → ℚ) (lat lon : ℚ) :
    find_closest_hub dist lat lon [] (-1) = (none, some ⊤) ∧
      (∀ distance_threshold : ℚ, 0 < distance_threshold →
        find_closest_hub dist lat lon [] distance_threshold = (none, none)) := by
  constructor
  · unfold find_closest_hub closestLoop
    rw [if_neg (fun hcon => absurd hcon.1 (by norm_num))]
  · intro t ht
    unfold find_closest_hub closestLoop
    rw [if_pos ⟨ht, WithTop.coe_lt_top t⟩]

/-- Witness for C10: concrete empty-hub calls with the default and a
positive threshold. -/
theorem C10_empty_hubs_inf_distance_witness :
    find_closest_hub demoDist 0 0 [] (-1) = (none, some ⊤) ∧
      find_closest_hub demoDist 0 0 [] 100 = (none, none) :=
  ⟨(C10_empty_hubs_inf_distance demoDist 0 0).1,
    (C10_empty_hubs_inf_distance demoDist 0 0).2 100 (by norm_num)⟩

/-! ## app/utils/classification_utils.py and app/core/outcome_classifier.py

`parse_chatbot_response` runs `ast.literal_eval` and keeps the result
only when it is a `list` of `str`. The model implements the Python
literal grammar restricted to lists of plain (escape-free) string
literals; every other input — malformed text, non-list literals,
lists with non-string elements — yields `none`, exactly as the Python
function returns `None` for them. `azure_service.query` is the external
LLM collaborator, modelled as an oracle indexed by the running count of
queries issued. -/

/-- The single-quote character, written via its code point. -/
def squote : Char := Char.ofNat 39

/-- Read a Python string literal body up to the closing quote `qc`;
returns the body and the remainder, or `none` if the quote is never
closed. -/
def parseStringLit (qc : Char) : List Char → Option (List Char × List Char)
  | [] => none
  | c :: cs =>
    if c = qc then some ([], cs)
    else
      match parseStringLit qc cs with
      | some (s, rest) => some (c :: s, rest)
      | none => none

/-- Read the comma-separated string literals of a Python list literal up
to the closing `]` (trailing commas allowed, as in `literal_eval`). The
fuel argument dominates the number of items (each item consumes fuel and
at least one input character, and the initial fuel exceeds the input
length) and makes the recursion structural. -/
def parseItems : ℕ → List Char → Option (List String × List Char)
  | 0, _ => none
  | n + 1, l =>
    match l.dropWhile Char.isWhitespace with
    | [] => none
    | c :: cs =>
      if c = ']' then some ([], cs)
      else if c = squote ∨ c = '"' then
        match parseStringLit c cs with
        | none => none
        | some (s, rest) =>
          match rest.dropWhile Char.isWhitespace with
          | ',' :: rest' =>
            match parseItems n rest' with
            | some (ss, r) => some (⟨s⟩ :: ss, r)
            | none => none
          | ']' :: rest' => some ([⟨s⟩], rest')
          | _ => none
      else none

/-- `parse_chatbot_response`: accept exactly a Python list-of-strings
literal (with surrounding whitespace), otherwise `None`. -/
def parse_chatbot_response (response : String) : Option (List String) :=
  match response.data.dropWhile Char.isWhitespace with
  | '[' :: rest =>
    match parseItems (rest.length + 1) rest with
    | some (ss, rem) =>
      if (rem.dropWhile Char.isWhitespace).isEmpty then some ss else none
    | none => none
  | _ => none

/-- `validate_classifications`: every returned classification must be in
the permitted vocabulary. -/
def validate_classifications (classifications possible_classifications : List String) :
    Bool :=
  classifications.all (fun c => possible_classifications.contains c)

/-- An LLM response counts as valid when it parses as a Python list of
strings and every entry is in the permitted vocabulary. -/
def isValidResponse (outcome_areas : List String) (r : String) : Bool :=
  match parse_chatbot_response r with
  | some areas => validate_classifications areas outcome_areas
  | none => false

/-- The retry loop of `get_outcome_areas_from_description`. Each
iteration issues TWO collaborator queries — the classification query
(`query qcount`, whose text only feeds the next prompt) and the
extraction query (`query (qcount + 1)`, which is parsed and
validated) — then returns the parsed areas on success or retries.
The model returns the result paired with the total number of queries
issued. -/
def get_outcome_areas_loop (query : ℕ → String) (outcome_areas : List String) :
    ℕ → ℕ → List String × ℕ
  | 0, qcount => ([], qcount)
  | n + 1, qcount =>
    let _classification_response := query qcount
    match parse_chatbot_response (query (qcount + 1)) with
    | some areas =>
      if validate_classifications areas outcome_areas then (areas, qcount + 2)
      else get_outcome_areas_loop query outcome_areas n (qcount + 2)
    | none => get_outcome_areas_loop query outcome_areas n (qcount + 2)

/-- `get_outcome_areas_from_description`: run up to `max_retries`
attempts (the Python default is `max_retries = 3`) and return the
parsed outcome areas, or `[]` when every attempt fails; paired with the
number of collaborator queries issued. -/
def get_outcome_areas_from_description (query : ℕ → String)
    (outcome_areas : List String) (max_retries : ℕ) : List String × ℕ :=
  get_outcome_areas_loop query outcome_areas max_retries 0

/-- Loop invariant: starting from query count `q0`, the loop issues at
most `2 * n` further queries, only ever returns vocabularies that
validate, and returns `([], q0 + 2 * n)` when every response in range
is invalid. -/
theorem get_outcome_areas_loop_spec (query : ℕ → String)
    (outcome_areas : List String) (n q0 : ℕ) :
    (get_outcome_areas_loop query outcome_areas n q0).2 ≤ q0 + 2 * n ∧
      validate_classifications
        (get_outcome_areas_loop query outcome_areas n q0).1 outcome_areas = true ∧
      ((∀ k, q0 ≤ k → k < q0 + 2 * n → isValidResponse outcome_areas (query k) = false) →
        get_outcome_areas_loop query outcome_areas n q0 = ([], q0 + 2 * n)) := by
  induction n generalizing q0 with
  | zero =>
    refine ⟨by dsimp only [get_outcome_areas_loop]; omega, rfl, fun _ => ?_⟩
    dsimp only [get_outcome_areas_loop]
    simp
  | succ n ih =>
    dsimp only [get_outcome_areas_loop]
    cases hp : parse_chatbot_response (query (q0 + 1)) with
    | some areas =>
      dsimp only
      by_cases hv : validate_classifications areas outcome_areas = true
      · rw [if_pos hv]
        refine ⟨by dsimp only; omega, hv, fun hall => ?_⟩
        exfalso
        have hk := hall (q0 + 1) (by omega) (by omega)
        simp only [isValidResponse, hp] at hk
        exact absurd hk (by simp [hv])
      · rw [if_neg hv]
        obtain ⟨h1, h2, h3⟩ := ih (q0 + 2)
        refine ⟨by omega, h2, fun hall => ?_⟩
        have heq := h3 fun k hk1 hk2 => hall k (by omega) (by omega)
        rw [heq]
        simp only [Prod.mk.injEq]
        exact ⟨trivial, by omega⟩
    | none =>
      dsimp only
      obtain ⟨h1, h2, h3⟩ := ih (q0 + 2)
      refine ⟨by omega, h2, fun hall => ?_⟩
      have heq := h3 fun k hk1 hk2 => hall k (by omega) (by omega)
      rw [heq]
      simp only [Prod.mk.injEq]
      exact ⟨trivial, by omega⟩

/-- Counterexample to C9 as stated: with the default `max_retries = 3`
and a collaborator that always answers unparseable text, the classifier
issues 6 queries, not at most 3 — each attempt sends a classification
query and an extraction query. -/
theorem C9_more_than_max_retries_queries_counterexample :
    get_outcome_areas_from_description (fun _ => "Invalid input") ["Oncology"] 3
        = ([], 6) ∧
      ¬(get_outcome_areas_from_description (fun _ => "Invalid input") ["Oncology"] 3).2 ≤ 3 := by
  constructor <;> decide

/-- C9 (amended): the classifier performs at most `max_retries` attempts,
each issuing two collaborator queries (classification, then extraction),
so at most `2 * max_retries` queries in total (6 at the default of 3);
an extraction response that fails to parse as a Python list of strings
or contains a classification outside the permitted vocabulary triggers a
retry; whatever is returned validates against the vocabulary; and when
every attempt fails the function returns the empty list (no exception:
the model is a total function). -/
theorem C9_bounded_retry_two_queries_per_attempt (query : ℕ → String)
    (outcome_areas : List String) (max_retries : ℕ) :
    (get_outcome_areas_from_description query outcome_areas max_retries).2
        ≤ 2 * max_retries ∧
      validate_classifications
        (get_outcome_areas_from_description query outcome_areas max_retries).1
        outcome_areas = true ∧
      ((∀ k, k < 2 * max_retries → isValidResponse outcome_areas (query k) = false) →
        get_outcome_areas_from_description query outcome_areas max_retries
          = ([], 2 * max_retries)) := by
  obtain ⟨h1, h2, h3⟩ := get_outcome_areas_loop_spec query outcome_areas max_retries 0
  refine ⟨by simpa using h1, h2, fun hall => ?_⟩
  have := h3 fun k _ hk2 => hall k (by omega)
  simpa using this

/-- Witness for the amended C9: the always-failing collaborator exhausts
all three attempts, issues exactly 6 queries and returns the empty
list. -/
theorem C9_bounded_retry_two_queries_per_attempt_witness :
    (get_outcome_areas_from_description (fun _ => "Invalid input") ["Oncology"] 3).2
        ≤ 2 * 3 ∧
      get_outcome_areas_from_description (fun _ => "Invalid input") ["Oncology"] 3
        = ([], 2 * 3) := by
  have h := C9_bounded_retry_two_queries_per_attempt (fun _ => "Invalid input")
    ["Oncology"] 3
  exact ⟨h.1, h.2.2 (by decide)⟩

/-! ## app/utils/general_utils.py: get_distance (haversine)

Modelled over ℝ with real trigonometric functions: the claim is about
the mathematical formula the float code implements and its values at
concrete coordinates, stated with enough slack (±20 km) that the
double-precision rounding of the Python floats is immaterial. -/

/-- Python `math.radians`: degrees to radians. -/
noncomputable def radians (deg : ℝ) : ℝ := deg * (Real.pi / 180)

/-- Python `math.atan2` (signed zeros are not represented in ℝ; the
`x = 0` rows follow `atan2(y, +0.0)`). -/
noncomputable def atan2 (y x : ℝ) : ℝ :=
  if 0 < x then Real.arctan (y / x)
  else if x < 0 ∧ 0 ≤ y then Real.arctan (y / x) + Real.pi
  else if x < 0 then Real.arctan (y / x) - Real.pi
  else if 0 < y then Real.pi / 2
  else if y < 0 then -(Real.pi / 2)
  else 0

/-- `get_distance` from app/utils/general_utils.py: convert the four
coordinates to radians, apply the haversine formula with
`a = sin²(Δlat/2) + cos lat1 · cos lat2 · sin²(Δlon/2)`,
`c = 2·atan2(√a, √(1-a))`, and Earth radius 6371 km. -/
noncomputable def get_distance (lat1 lon1 lat2 lon2 : ℝ) : ℝ :=
  let lat1r := radians lat1
  let lon1r := radians lon1
  let lat2r := radians lat2
  let lon2r := radians lon2
  let dlat := lat2r - lat1r
  let dlon := lon2r - lon1r
  let a := Real.sin (dlat / 2) ^ 2
    + Real.cos lat1r * Real.cos lat2r * Real.sin (dlon / 2) ^ 2
  let c := 2 * atan2 (Real.sqrt a) (Real.sqrt (1 - a))
  6371 * c

/-! Degree-7 Taylor enclosures for sin and cos on `[0, 1]`, derived from
`Complex.exp_bound` at order 8; they give the five-decimal precision the
London-New York sanity check needs. -/

open Complex in
theorem sum_range_eight_mul_I (x : ℝ) :
    (∑ m ∈ Finset.range 8, ((x : ℂ) * I) ^ m / m.factorial)
      = ((1 - x ^ 2 / 2 + x ^ 4 / 24 - x ^ 6 / 720 : ℝ) : ℂ)
        + ((x - x ^ 3 / 6 + x ^ 5 / 120 - x ^ 7 / 5040 : ℝ) : ℂ) * I := by
  simp only [Finset.sum_range_succ, Finset.range_zero, Finset.sum_empty, Nat.factorial]
  push_cast
  apply Complex.ext <;> simp [mul_pow, pow_succ, Complex.ext_iff] <;> ring

open Complex in
theorem exp_I_sub_poly_bound {x : ℝ} (hx : |x| ≤ 1) :
    Complex.abs (Complex.exp ((x : ℂ) * I)
        - (((1 - x ^ 2 / 2 + x ^ 4 / 24 - x ^ 6 / 720 : ℝ) : ℂ)
          + ((x - x ^ 3 / 6 + x ^ 5 / 120 - x ^ 7 / 5040 : ℝ) : ℂ) * I))
      ≤ |x| ^ 8 * (9 / 322560) := by
  have habsx : Complex.abs ((x : ℂ) * I) = |x| := by simp
  have habs : Complex.abs ((x : ℂ) * I) ≤ 1 := by rw [habsx]; exact hx
  have hb := @Complex.exp_bound ((x : ℂ) * I) habs 8 (by norm_num)
  rw [sum_range_eight_mul_I, habsx] at hb
  calc Complex.abs (Complex.exp ((x : ℂ) * I) - _)
      ≤ |x| ^ 8 * ((Nat.succ 8 : ℝ) * ((Nat.factorial 8 : ℝ) * (8 : ℕ) : ℝ)⁻¹) := hb
    _ = |x| ^ 8 * (9 / 322560) := by norm_num [Nat.factorial]

theorem real_cos_taylor {x : ℝ} (hx : |x| ≤ 1) :
    |Real.cos x - (1 - x ^ 2 / 2 + x ^ 4 / 24 - x ^ 6 / 720)| ≤ |x| ^ 8 * (9 / 322560) := by
  have hb := exp_I_sub_poly_bound hx
  have hexp : Complex.exp ((x : ℂ) * Complex.I)
      = ((Real.cos x : ℝ) : ℂ) + ((Real.sin x : ℝ) : ℂ) * Complex.I := by
    rw [Complex.exp_mul_I, Complex.ofReal_cos, Complex.ofReal_sin]
  rw [hexp] at hb
  have hre : (((Real.cos x : ℝ) : ℂ) + ((Real.sin x : ℝ) : ℂ) * Complex.I
        - (((1 - x ^ 2 / 2 + x ^ 4 / 24 - x ^ 6 / 720 : ℝ) : ℂ)
          + ((x - x ^ 3 / 6 + x ^ 5 / 120 - x ^ 7 / 5040 : ℝ) : ℂ) * Complex.I))
      = ((Real.cos x - (1 - x ^ 2 / 2 + x ^ 4 / 24 - x ^ 6 / 720) : ℝ) : ℂ)
        + ((Real.sin x - (x - x ^ 3 / 6 + x ^ 5 / 120 - x ^ 7 / 5040) : ℝ) : ℂ) * Complex.I := by
    push_cast
    ring
  rw [hre] at hb
  have hcomp : (((Real.cos x - (1 - x ^ 2 / 2 + x ^ 4 / 24 - x ^ 6 / 720) : ℝ) : ℂ)
        + ((Real.sin x - (x - x ^ 3 / 6 + x ^ 5 / 120 - x ^ 7 / 5040) : ℝ) : ℂ) * Complex.I).re
      = Real.cos x - (1 - x ^ 2 / 2 + x ^ 4 / 24 - x ^ 6 / 720) := by
    simp only [Complex.add_re, Complex.mul_re, Complex.I_re, Complex.I_im,
      Complex.ofReal_re, Complex.ofReal_im, mul_zero, zero_mul, mul_one,
      sub_zero, add_zero]
  calc |Real.cos x - (1 - x ^ 2 / 2 + x ^ 4 / 24 - x ^ 6 / 720)|
      = |(((Real.cos x - (1 - x ^ 2 / 2 + x ^ 4 / 24 - x ^ 6 / 720) : ℝ) : ℂ)
          + ((Real.sin x - (x - x ^ 3 / 6 + x ^ 5 / 120 - x ^ 7 / 5040) : ℝ) : ℂ)
            * Complex.I).re| := by
        rw [hcomp]
    _ ≤ Complex.abs _ := Complex.abs_re_le_abs _
    _ ≤ |x| ^ 8 * (9 / 322560) := hb

theorem real_sin_taylor {x : ℝ} (hx : |x| ≤ 1) :
    |Real.sin x - (x - x ^ 3 / 6 + x ^ 5 / 120 - x ^ 7 / 5040)| ≤ |x| ^ 8 * (9 / 322560) := by
  have hb := exp_I_sub_poly_bound hx
  have hexp : Complex.exp ((x : ℂ) * Complex.I)
      = ((Real.cos x : ℝ) : ℂ) + ((Real.sin x : ℝ) : ℂ) * Complex.I := by
    rw [Complex.exp_mul_I, Complex.ofReal_cos, Complex.ofReal_sin]
  rw [hexp] at hb
  have hre : (((Real.cos x : ℝ) : ℂ) + ((Real.sin x : ℝ) : ℂ) * Complex.I
        - (((1 - x ^ 2 / 2 + x ^ 4 / 24 - x ^ 6 / 720 : ℝ) : ℂ)
          + ((x - x ^ 3 / 6 + x ^ 5 / 120 - x ^ 7 / 5040 : ℝ) : ℂ) * Complex.I))
      = ((Real.cos x - (1 - x ^ 2 / 2 + x ^ 4 / 24 - x ^ 6 / 720) : ℝ) : ℂ)
        + ((Real.sin x - (x - x ^ 3 / 6 + x ^ 5 / 120 - x ^ 7 / 5040) : ℝ) : ℂ) * Complex.I := by
    push_cast
    ring
  rw [hre] at hb
  have hcomp : (((Real.cos x - (1 - x ^ 2 / 2 + x ^ 4 / 24 - x ^ 6 / 720) : ℝ) : ℂ)
        + ((Real.sin x - (x - x ^ 3 / 6 + x ^ 5 / 120 - x ^ 7 / 5040) : ℝ) : ℂ) * Complex.I).im
      = Real.sin x - (x - x ^ 3 / 6 + x ^ 5 / 120 - x ^ 7 / 5040) := by
    simp only [Complex.add_im, Complex.mul_im, Complex.I_re, Complex.I_im,
      Complex.ofReal_re, Complex.ofReal_im, mul_zero, zero_mul, mul_one,
      zero_add, add_zero]
  calc |Real.sin x - (x - x ^ 3 / 6 + x ^ 5 / 120 - x ^ 7 / 5040)|
      = |(((Real.cos x - (1 - x ^ 2 / 2 + x ^ 4 / 24 - x ^ 6 / 720) : ℝ) : ℂ)
          + ((Real.sin x - (x - x ^ 3 / 6 + x ^ 5 / 120 - x ^ 7 / 5040) : ℝ) : ℂ)
            * Complex.I).im| := by
        rw [hcomp]
    _ ≤ Complex.abs _ := Complex.abs_im_le_abs _
    _ ≤ |x| ^ 8 * (9 / 322560) := hb

/-- Enclosure for `sin` over `[lo, hi] ⊆ [0, 1]`, using the term-wise
monotone bounds of the degree-7 Taylor polynomial. -/
theorem real_sin_interval {x lo hi : ℝ} (h0 : 0 ≤ lo) (h1 : lo ≤ x) (h2 : x ≤ hi)
    (h3 : hi ≤ 1) :
    lo - hi ^ 3 / 6 + lo ^ 5 / 120 - hi ^ 7 / 5040 - hi ^ 8 * (9 / 322560) ≤ Real.sin x ∧
      Real.sin x ≤ hi - lo ^ 3 / 6 + hi ^ 5 / 120 - lo ^ 7 / 5040 + hi ^ 8 * (9 / 322560) := by
  have hx0 : 0 ≤ x := le_trans h0 h1
  have hb := @real_sin_taylor x (by rw [abs_of_nonneg hx0]; exact le_trans h2 h3)
  rw [abs_of_nonneg hx0, abs_le] at hb
  have p3 : lo ^ 3 ≤ x ^ 3 := pow_le_pow_left₀ h0 h1 3
  have p3' : x ^ 3 ≤ hi ^ 3 := pow_le_pow_left₀ hx0 h2 3
  have p5 : lo ^ 5 ≤ x ^ 5 := pow_le_pow_left₀ h0 h1 5
  have p5' : x ^ 5 ≤ hi ^ 5 := pow_le_pow_left₀ hx0 h2 5
  have p7 : lo ^ 7 ≤ x ^ 7 := pow_le_pow_left₀ h0 h1 7
  have p7' : x ^ 7 ≤ hi ^ 7 := pow_le_pow_left₀ hx0 h2 7
  have p8' : x ^ 8 ≤ hi ^ 8 := pow_le_pow_left₀ hx0 h2 8
  have p80 : 0 ≤ x ^ 8 := pow_nonneg hx0 8
  constructor <;> [linarith [hb.1]; linarith [hb.2]]

/-- Enclosure for `cos` over `[lo, hi] ⊆ [0, 1]`. -/
theorem real_cos_interval {x lo hi : ℝ} (h0 : 0 ≤ lo) (h1 : lo ≤ x) (h2 : x ≤ hi)
    (h3 : hi ≤ 1) :
    1 - hi ^ 2 / 2 + lo ^ 4 / 24 - hi ^ 6 / 720 - hi ^ 8 * (9 / 322560) ≤ Real.cos x ∧
      Real.cos x ≤ 1 - lo ^ 2 / 2 + hi ^ 4 / 24 - lo ^ 6 / 720 + hi ^ 8 * (9 / 322560) := by
  have hx0 : 0 ≤ x := le_trans h0 h1
  have hb := @real_cos_taylor x (by rw [abs_of_nonneg hx0]; exact le_trans h2 h3)
  rw [abs_of_nonneg hx0, abs_le] at hb
  have p2 : lo ^ 2 ≤ x ^ 2 := pow_le_pow_left₀ h0 h1 2
  have p2' : x ^ 2 ≤ hi ^ 2 := pow_le_pow_left₀ hx0 h2 2
  have p4 : lo ^ 4 ≤ x ^ 4 := pow_le_pow_left₀ h0 h1 4
  have p4' : x ^ 4 ≤ hi ^ 4 := pow_le_pow_left₀ hx0 h2 4
  have p6 : lo ^ 6 ≤ x ^ 6 := pow_le_pow_left₀ h0 h1 6
  have p6' : x ^ 6 ≤ hi ^ 6 := pow_le_pow_left₀ hx0 h2 6
  have p8' : x ^ 8 ≤ hi ^ 8 := pow_le_pow_left₀ hx0 h2 8
  have p80 : 0 ≤ x ^ 8 := pow_nonneg hx0 8
  constructor <;> [linarith [hb.1]; linarith [hb.2]]

/-- Bracketing a non-negative rational multiple of π with the
six-decimal bounds on π. -/
theorem rpi_mem {r : ℝ} (hr : 0 ≤ r) :
    r * 3.141592 ≤ r * Real.pi ∧ r * Real.pi ≤ r * 3.141593 :=
  ⟨mul_le_mul_of_nonneg_left (le_of_lt Real.pi_gt_d6) hr,
    mul_le_mul_of_nonneg_left (le_of_lt Real.pi_lt_d6) hr⟩

/-- Half the latitude difference of London and New York, in radians:
`(51.5074 - 40.7128)/2/180 · π = 53973/1800000 · π`. -/
theorem sin_d1_bounds :
    0.094061 ≤ Real.sin ((53973 / 1800000) * Real.pi) ∧
      Real.sin ((53973 / 1800000) * Real.pi) ≤ 0.094062 := by
  have hmem := @rpi_mem (53973 / 1800000 : ℝ) (by norm_num)
  have h := @real_sin_interval ((53973 / 1800000 : ℝ) * Real.pi)
    ((53973 / 1800000 : ℝ) * 3.141592) ((53973 / 1800000 : ℝ) * 3.141593)
    (by norm_num) hmem.1 hmem.2 (by norm_num)
  exact ⟨le_trans (by norm_num) h.1, le_trans h.2 (by norm_num)⟩

/-- London's latitude in radians: `51.5074/180 · π = 515074/1800000 · π`. -/
theorem cos_f1_bounds :
    0.62239 ≤ Real.cos ((515074 / 1800000) * Real.pi) ∧
      Real.cos ((515074 / 1800000) * Real.pi) ≤ 0.62242 := by
  have hmem := @rpi_mem (515074 / 1800000 : ℝ) (by norm_num)
  have h := @real_cos_interval ((515074 / 1800000 : ℝ) * Real.pi)
    ((515074 / 1800000 : ℝ) * 3.141592) ((515074 / 1800000 : ℝ) * 3.141593)
    (by norm_num) hmem.1 hmem.2 (by norm_num)
  exact ⟨le_trans (by norm_num) h.1, le_trans h.2 (by norm_num)⟩

/-- New York's latitude in radians: `40.7128/180 · π = 407128/1800000 · π`. -/
theorem cos_f2_bounds :
    0.75798 ≤ Real.cos ((407128 / 1800000) * Real.pi) ∧
      Real.cos ((407128 / 1800000) * Real.pi) ≤ 0.75799 := by
  have hmem := @rpi_mem (407128 / 1800000 : ℝ) (by norm_num)
  have h := @real_cos_interval ((407128 / 1800000 : ℝ) * Real.pi)
    ((407128 / 1800000 : ℝ) * 3.141592) ((407128 / 1800000 : ℝ) * 3.141593)
    (by norm_num) hmem.1 hmem.2 (by norm_num)
  exact ⟨le_trans (by norm_num) h.1, le_trans h.2 (by norm_num)⟩

/-- Half the longitude difference, in radians:
`(74.0060 - 0.1278)/2/180 · π = 369391/1800000 · π`. -/
theorem sin_d2_bounds :
    0.600964 ≤ Real.sin ((369391 / 1800000) * Real.pi) ∧
      Real.sin ((369391 / 1800000) * Real.pi) ≤ 0.600967 := by
  have hmem := @rpi_mem (369391 / 1800000 : ℝ) (by norm_num)
  have h := @real_sin_interval ((369391 / 1800000 : ℝ) * Real.pi)
    ((369391 / 1800000 : ℝ) * 3.141592) ((369391 / 1800000 : ℝ) * 3.141593)
    (by norm_num) hmem.1 hmem.2 (by norm_num)
  exact ⟨le_trans (by norm_num) h.1, le_trans h.2 (by norm_num)⟩

/-- The haversine `a`-value of the London (51.5074, -0.1278) to
New York (40.7128, -74.0060) pair, with the sign-squared differences
rewritten over positive angles. -/
noncomputable def londonNYhav : ℝ :=
  Real.sin ((53973 / 1800000) * Real.pi) ^ 2
    + Real.cos ((515074 / 1800000) * Real.pi) * Real.cos ((407128 / 1800000) * Real.pi)
      * Real.sin ((369391 / 1800000) * Real.pi) ^ 2

/-- Rational enclosure of the `a`-value. -/
theorem londonNYhav_bounds :
    (0.178022 : ℝ) ≤ londonNYhav ∧ londonNYhav ≤ 0.180427 := by
  obtain ⟨hs1l, hs1u⟩ := sin_d1_bounds
  obtain ⟨hc1l, hc1u⟩ := cos_f1_bounds
  obtain ⟨hc2l, hc2u⟩ := cos_f2_bounds
  obtain ⟨hs2l, hs2u⟩ := sin_d2_bounds
  have hs10 : (0 : ℝ) ≤ Real.sin ((53973 / 1800000) * Real.pi) :=
    le_trans (by norm_num) hs1l
  have hc10 : (0 : ℝ) ≤ Real.cos ((515074 / 1800000) * Real.pi) :=
    le_trans (by norm_num) hc1l
  have hc20 : (0 : ℝ) ≤ Real.cos ((407128 / 1800000) * Real.pi) :=
    le_trans (by norm_num) hc2l
  have hs20 : (0 : ℝ) ≤ Real.sin ((369391 / 1800000) * Real.pi) :=
    le_trans (by norm_num) hs2l
  have hq1 : (0.094061 : ℝ) ^ 2 ≤ Real.sin ((53973 / 1800000) * Real.pi) ^ 2 :=
    pow_le_pow_left₀ (by norm_num) hs1l 2
  have hq1' : Real.sin ((53973 / 1800000) * Real.pi) ^ 2 ≤ (0.094062 : ℝ) ^ 2 :=
    pow_le_pow_left₀ hs10 hs1u 2
  have hq2 : (0.600964 : ℝ) ^ 2 ≤ Real.sin ((369391 / 1800000) * Real.pi) ^ 2 :=
    pow_le_pow_left₀ (by norm_num) hs2l 2
  have hq2' : Real.sin ((369391 / 1800000) * Real.pi) ^ 2 ≤ (0.600967 : ℝ) ^ 2 :=
    pow_le_pow_left₀ hs20 hs2u 2
  have hcc : (0.62239 : ℝ) * 0.75798
      ≤ Real.cos ((515074 / 1800000) * Real.pi) * Real.cos ((407128 / 1800000) * Real.pi) :=
    mul_le_mul hc1l hc2l (by norm_num) hc10
  have hcc' : Real.cos ((515074 / 1800000) * Real.pi) * Real.cos ((407128 / 1800000) * Real.pi)
      ≤ (0.62242 : ℝ) * 0.75799 :=
    mul_le_mul hc1u hc2u hc20 (by norm_num)
  have hcc0 : (0 : ℝ)
      ≤ Real.cos ((515074 / 1800000) * Real.pi) * Real.cos ((407128 / 1800000) * Real.pi) :=
    mul_nonneg hc10 hc20
  have hp : ((0.62239 : ℝ) * 0.75798) * ((0.600964 : ℝ) ^ 2)
      ≤ (Real.cos ((515074 / 1800000) * Real.pi) * Real.cos ((407128 / 1800000) * Real.pi))
        * Real.sin ((369391 / 1800000) * Real.pi) ^ 2 :=
    mul_le_mul hcc hq2 (by norm_num) hcc0
  have hp' : (Real.cos ((515074 / 1800000) * Real.pi) * Real.cos ((407128 / 1800000) * Real.pi))
        * Real.sin ((369391 / 1800000) * Real.pi) ^ 2
      ≤ ((0.62242 : ℝ) * 0.75799) * ((0.600967 : ℝ) ^ 2) :=
    mul_le_mul hcc' hq2' (sq_nonneg _) (by norm_num)
  unfold londonNYhav
  constructor <;> nlinarith [hq1, hq1', hp, hp']

/-- For `a ∈ [0, 1)` (the haversine value of distinct non-antipodal
points), `atan2(√a, √(1-a))` lands in the `x > 0` branch and equals
`arcsin √a`. -/
theorem atan2_sqrt_eq_arcsin {a : ℝ} (h0 : 0 ≤ a) (h1 : a < 1) :
    atan2 (Real.sqrt a) (Real.sqrt (1 - a)) = Real.arcsin (Real.sqrt a) := by
  have hx : 0 < Real.sqrt (1 - a) := Real.sqrt_pos.2 (by linarith)
  have hmem : Real.sqrt a ∈ Set.Ioo (-1 : ℝ) 1 :=
    ⟨lt_of_lt_of_le (by norm_num) (Real.sqrt_nonneg a),
      (Real.sqrt_lt' (by norm_num : (0 : ℝ) < 1)).2 (by simpa using h1)⟩
  rw [atan2, if_pos hx, Real.arcsin_eq_arctan hmem, Real.sq_sqrt h0]

/-- `radians 51.5074` as a rational multiple of π. -/
theorem radians_london : radians 51.5074 = (515074 / 1800000) * Real.pi := by
  unfold radians
  ring_nf

/-- `radians 40.7128` as a rational multiple of π. -/
theorem radians_ny : radians 40.7128 = (407128 / 1800000) * Real.pi := by
  unfold radians
  ring_nf

/-- The half latitude difference as a negative rational multiple of π. -/
theorem radians_dlat :
    (radians 40.7128 - radians 51.5074) / 2 = -((53973 / 1800000) * Real.pi) := by
  unfold radians
  ring_nf

/-- The half longitude difference as a negative rational multiple of π. -/
theorem radians_dlon :
    (radians (-74.0060) - radians (-0.1278)) / 2 = -((369391 / 1800000) * Real.pi) := by
  unfold radians
  ring_nf

/-- `get_distance` on the London-New York pair reduces to
`12742 · arcsin √a`. -/
theorem get_distance_londonNY :
    get_distance 51.5074 (-0.1278) 40.7128 (-74.0060)
      = 12742 * Real.arcsin (Real.sqrt londonNYhav) := by
  obtain ⟨hAl, hAu⟩ := londonNYhav_bounds
  have ha : Real.sin ((radians 40.7128 - radians 51.5074) / 2) ^ 2
      + Real.cos (radians 51.5074) * Real.cos (radians 40.7128)
        * Real.sin ((radians (-74.0060) - radians (-0.1278)) / 2) ^ 2
      = londonNYhav := by
    rw [radians_dlat, radians_dlon, radians_london, radians_ny,
      Real.sin_neg, Real.sin_neg]
    unfold londonNYhav
    ring
  show 6371 * (2 * atan2 (Real.sqrt _) (Real.sqrt (1 - _))) = _
  rw [ha, atan2_sqrt_eq_arcsin (by linarith) (by linarith)]
  ring

/-- C8: `get_distance` converts every coordinate from degrees to radians
and computes `6371 · 2 · atan2(√a, √(1-a))` with
`a = sin²(Δlat/2) + cos lat1 · cos lat2 · sin²(Δlon/2)`; the distance
from any point to itself is 0; and the London-New York distance lies in
`[5550, 5590]`, i.e. within ±20 km of 5570 km. -/
theorem C8_haversine_formula_and_sanity :
    (∀ lat1 lon1 lat2 lon2 : ℝ,
      get_distance lat1 lon1 lat2 lon2
        = 6371 * (2 * atan2
            (Real.sqrt (Real.sin ((radians lat2 - radians lat1) / 2) ^ 2
              + Real.cos (radians lat1) * Real.cos (radians lat2)
                * Real.sin ((radians lon2 - radians lon1) / 2) ^ 2))
            (Real.sqrt (1 - (Real.sin ((radians lat2 - radians lat1) / 2) ^ 2
              + Real.cos (radians lat1) * Real.cos (radians lat2)
                * Real.sin ((radians lon2 - radians lon1) / 2) ^ 2))))) ∧
      (∀ lat lon : ℝ, get_distance lat lon lat lon = 0) ∧
      5550 ≤ get_distance 51.5074 (-0.1278) 40.7128 (-74.0060) ∧
      get_distance 51.5074 (-0.1278) 40.7128 (-74.0060) ≤ 5590 := by
  refine ⟨fun lat1 lon1 lat2 lon2 => rfl, fun lat lon => ?_, ?_, ?_⟩
  · show 6371 * (2 * atan2 (Real.sqrt _) (Real.sqrt (1 - _))) = 0
    rw [sub_self, zero_div, Real.sin_zero]
    norm_num [atan2, Real.sqrt_one]
  · obtain ⟨hAl, hAu⟩ := londonNYhav_bounds
    rw [get_distance_londonNY]
    have hsl := @real_sin_interval (5550 / 12742 : ℝ) (5550 / 12742 : ℝ)
      (5550 / 12742 : ℝ) (by norm_num) le_rfl le_rfl (by norm_num)
    have hsinl : Real.sin (5550 / 12742 : ℝ) ≤ 0.421925 := le_trans hsl.2 (by norm_num)
    have hsqA : (0.421925 : ℝ) ≤ Real.sqrt londonNYhav :=
      (Real.le_sqrt (by norm_num) (by linarith)).2
        (le_trans (by norm_num) hAl)
    have hsqA1 : Real.sqrt londonNYhav ≤ 1 :=
      (Real.sqrt_le_left (by norm_num)).2 (by nlinarith)
    have harcl : (5550 / 12742 : ℝ) ≤ Real.arcsin (Real.sqrt londonNYhav) := by
      refine (Real.le_arcsin_iff_sin_le ⟨?_, ?_⟩
        ⟨le_trans (by norm_num) (Real.sqrt_nonneg _), hsqA1⟩).2 (by linarith)
      · have := Real.pi_pos
        nlinarith
      · have := Real.pi_gt_three
        nlinarith
    calc (5550 : ℝ) = 12742 * (5550 / 12742 : ℝ) := by norm_num
      _ ≤ 12742 * Real.arcsin (Real.sqrt londonNYhav) := by nlinarith
  · obtain ⟨hAl, hAu⟩ := londonNYhav_bounds
    rw [get_distance_londonNY]
    have hsu := @real_sin_interval (5590 / 12742 : ℝ) (5590 / 12742 : ℝ)
      (5590 / 12742 : ℝ) (by norm_num) le_rfl le_rfl (by norm_num)
    have hsinu : (0.424768 : ℝ) ≤ Real.sin (5590 / 12742 : ℝ) :=
      le_trans (by norm_num) hsu.1
    have hsqA : Real.sqrt londonNYhav ≤ 0.424768 :=
      (Real.sqrt_le_left (by norm_num)).2 (le_trans hAu (by norm_num))
    have hsqA1 : Real.sqrt londonNYhav ≤ 1 := le_trans hsqA (by norm_num)
    have harcu : Real.arcsin (Real.sqrt londonNYhav) ≤ (5590 / 12742 : ℝ) := by
      refine (Real.arcsin_le_iff_le_sin
        ⟨le_trans (by norm_num) (Real.sqrt_nonneg _), hsqA1⟩ ⟨?_, ?_⟩).2 (by linarith)
      · have := Real.pi_pos
        nlinarith
      · have := Real.pi_gt_three
        nlinarith
    calc 12742 * Real.arcsin (Real.sqrt londonNYhav)
        ≤ 12742 * (5590 / 12742 : ℝ) := by nlinarith
      _ = 5590 := by norm_num
